import Mathlib

/-!
# loqa-voice-dsp: verification of the voice-analysis engine against its spec

The repository exposes a C interface (`src/ios/RustFFI/loqa_voice_dsp.h`) to a
set of voice-analysis routines: windowed FFT, YIN pitch detection, LPC formant
extraction, spectral shape statistics, autocorrelation HNR, and H1-H2.  The
header fixes the result-struct layouts and signatures; the algorithm bodies
live outside the interface surface, so the numeric behaviour below is modelled
from the specification (each such definition says so in its doc comment).

Modelling conventions:
* a nullable sample buffer is `Option (List α)`; `none` is the null pointer;
* `int32_t` arguments are `ℤ`; `float` arguments and results are `ℚ` on the
  purely rational paths (YIN pitch, formant selection) and `ℝ` where the
  algorithms are transcendental (FFT magnitudes, spectral statistics, HNR,
  H1-H2);
* the heap handshake of `compute_fft_rust` / `free_fft_result_rust` is an
  explicit allocation state (`FFTHeap`).
-/

open scoped BigOperators

/-- Reading an input frame: a null buffer or a non-positive length is rejected
(`none`); otherwise the first `len` samples are the frame.  Modelled from the
spec: "A null buffer or non-positive length must not crash the call". -/
def readFrame {α : Type} (buf : Option (List α)) (len : ℤ) : Option (List α) :=
  match buf with
  | none => none
  | some xs => if len ≤ 0 then none else some (xs.take len.toNat)

theorem readFrame_none {α : Type} (len : ℤ) :
    readFrame (α := α) none len = none := rfl

theorem readFrame_nonpos {α : Type} (buf : Option (List α)) {len : ℤ}
    (h : len ≤ 0) : readFrame buf len = none := by
  cases buf with
  | none => rfl
  | some xs => simp [readFrame, h]

/-! ## Pitch detection (YIN), modelled over ℚ

The YIN pipeline (difference function, cumulative mean normalized difference,
threshold search, parabolic refinement) is arithmetic over rationals, so it is
embedded computably over `ℚ`. -/

/-- Pitch detection result, matching the C struct `PitchResultC`
(`frequency`, `confidence`, `is_voiced`). -/
structure PitchResultC where
  frequency : ℚ
  confidence : ℚ
  is_voiced : Bool
  deriving DecidableEq, Repr

/-- Modelled from the spec: the YIN difference function
d(τ) = Σ (x[i]-x[i+τ])², summed over indices with `i+τ` inside the frame. -/
def dFun (xs : List ℚ) (τ : ℕ) : ℚ :=
  ∑ i ∈ Finset.range (xs.length - τ), (xs.getD i 0 - xs.getD (i + τ) 0) ^ 2

/-- Modelled from the spec: the cumulative mean normalized difference function
d'(τ) = d(τ)·τ / Σ_{1≤j≤τ} d(j), with d'(0) = 1 and the degenerate zero
cumulative sum (a silent frame) reported as 1 so that silence is never
accepted as voiced. -/
def cmnd (xs : List ℚ) (τ : ℕ) : ℚ :=
  if τ = 0 then 1
  else
    let s := ∑ j ∈ Finset.range τ, dFun xs (j + 1)
    if s = 0 then 1 else dFun xs τ * τ / s

/-- Modelled from the spec: the canonical YIN absolute threshold, 0.1. -/
def yinThreshold : ℚ := 1 / 10

/-- Modelled from the spec: the voicing confidence cutoff (tunable constant). -/
def voicingThreshold : ℚ := 1 / 2

/-- Modelled from the spec: a lag is accepted when it is a local minimum of
the normalized difference and falls below the absolute threshold. -/
def acceptLag (xs : List ℚ) (τ : ℕ) : Bool :=
  decide (cmnd xs τ < yinThreshold) &&
  decide (cmnd xs τ ≤ cmnd xs (τ - 1)) &&
  decide (cmnd xs τ ≤ cmnd xs (τ + 1))

/-- Modelled from the spec: the admissible lag range, from a minimum lag
derived from a 1000 Hz pitch ceiling (at least 2, so τ-1 ≥ 1) up to a maximum
lag derived from a 50 Hz pitch floor, bounded by the frame length. -/
def pitchLagList (len sr : ℤ) : List ℕ :=
  let lo : ℤ := max 2 (sr / 1000)
  let hi : ℤ := min (len - 1) (sr / 50)
  if lo ≤ hi then List.range' lo.toNat (hi + 1 - lo).toNat else []

/-- Modelled from the spec: parabolic interpolation of the accepted lag for
sub-sample precision, with a guard on the degenerate (flat) parabola. -/
def refineLag (xs : List ℚ) (τ : ℕ) : ℚ :=
  if cmnd xs (τ - 1) - 2 * cmnd xs τ + cmnd xs (τ + 1) = 0 then τ
  else τ + (cmnd xs (τ - 1) - cmnd xs (τ + 1)) /
    (2 * (cmnd xs (τ - 1) - 2 * cmnd xs τ + cmnd xs (τ + 1)))

/-- Modelled from the spec: `detect_pitch_rust` (YIN).  The implementation is
absent from the interface header, so the whole pipeline is modelled — invalid
input (null buffer, non-positive length or sample rate) degrades to the zero
result; a failed threshold search reports unvoiced zeros; an accepted lag τ
reports frequency = sample_rate / refined lag, confidence = 1 − d'(τ), and
voicing by confidence cutoff. -/
def detect_pitch_rust (buf : Option (List ℚ)) (len sr : ℤ) : PitchResultC :=
  match readFrame buf len with
  | none => ⟨0, 0, false⟩
  | some xs =>
    if sr ≤ 0 then ⟨0, 0, false⟩
    else
      match (pitchLagList len sr).find? (acceptLag xs) with
      | none => ⟨0, 0, false⟩
      | some τ =>
        let conf := 1 - cmnd xs τ
        ⟨(sr : ℚ) / refineLag xs τ, conf, decide (voicingThreshold ≤ conf)⟩

theorem dFun_nonneg (xs : List ℚ) (τ : ℕ) : 0 ≤ dFun xs τ :=
  Finset.sum_nonneg fun _ _ => sq_nonneg _

theorem cmnd_nonneg (xs : List ℚ) (τ : ℕ) : 0 ≤ cmnd xs τ := by
  unfold cmnd
  split
  · exact zero_le_one
  · set s := ∑ j ∈ Finset.range τ, dFun xs (j + 1) with hs
    by_cases h : s = 0
    · simp [h]
    · have hs0 : 0 ≤ s := Finset.sum_nonneg fun _ _ => dFun_nonneg xs _
      have hpos : 0 < s := lt_of_le_of_ne hs0 (Ne.symm h)
      simp only [h, if_false]
      exact div_nonneg (mul_nonneg (dFun_nonneg xs τ) (by positivity)) hs0

theorem getD_eq_of_all_eq {α : Type} {xs : List α} {z : α}
    (h : ∀ x ∈ xs, x = z) (i : ℕ) : xs.getD i z = z := by
  induction xs generalizing i with
  | nil => rfl
  | cons a l ih =>
    cases i with
    | zero => exact h a (List.mem_cons_self a l)
    | succ j =>
      rw [List.getD_cons_succ]
      exact ih (fun x hx => h x (List.mem_cons_of_mem a hx)) j

theorem dFun_all_zero {xs : List ℚ} (h : ∀ x ∈ xs, x = 0) (τ : ℕ) :
    dFun xs τ = 0 := by
  unfold dFun
  refine Finset.sum_eq_zero fun i _ => ?_
  rw [getD_eq_of_all_eq h, getD_eq_of_all_eq h]
  ring

theorem cmnd_all_zero {xs : List ℚ} (h : ∀ x ∈ xs, x = 0) (τ : ℕ) :
    cmnd xs τ = 1 := by
  unfold cmnd
  split
  · rfl
  · have hs : (∑ j ∈ Finset.range τ, dFun xs (j + 1)) = 0 :=
      Finset.sum_eq_zero fun j _ => dFun_all_zero h (j + 1)
    simp [hs]

theorem mem_pitchLagList_two_le {len sr : ℤ} {τ : ℕ}
    (h : τ ∈ pitchLagList len sr) : 2 ≤ τ := by
  unfold pitchLagList at h
  dsimp only at h
  split at h
  · rw [List.mem_range'_1] at h
    have h2 : (2 : ℤ) ≤ max 2 (sr / 1000) := le_max_left _ _
    have h2n : 2 ≤ (max 2 (sr / 1000)).toNat := Int.toNat_le_toNat h2
    exact le_trans h2n h.1
  · simp at h

theorem refineLag_pos (xs : List ℚ) (τ : ℕ) (h2 : 2 ≤ τ)
    (ha : cmnd xs τ ≤ cmnd xs (τ - 1)) (hc : cmnd xs τ ≤ cmnd xs (τ + 1)) :
    0 < refineLag xs τ := by
  have hτ : (2 : ℚ) ≤ (τ : ℚ) := by exact_mod_cast h2
  unfold refineLag
  split
  · linarith
  · rename_i hd
    have hdn : 0 ≤ cmnd xs (τ - 1) - 2 * cmnd xs τ + cmnd xs (τ + 1) := by linarith
    have hdpos : 0 < cmnd xs (τ - 1) - 2 * cmnd xs τ + cmnd xs (τ + 1) :=
      lt_of_le_of_ne hdn (Ne.symm hd)
    have hshift : -(1 / 2 : ℚ) ≤ (cmnd xs (τ - 1) - cmnd xs (τ + 1)) /
        (2 * (cmnd xs (τ - 1) - 2 * cmnd xs τ + cmnd xs (τ + 1))) := by
      rw [le_div_iff₀ (by linarith)]
      linarith
    linarith

theorem detect_pitch_sentinel_of_no_threshold
    (buf : Option (List ℚ)) (len sr : ℤ) (xs : List ℚ)
    (hf : readFrame buf len = some xs)
    (h : ∀ τ ∈ pitchLagList len sr, ¬ cmnd xs τ < yinThreshold) :
    detect_pitch_rust buf len sr = ⟨0, 0, false⟩ := by
  unfold detect_pitch_rust
  rw [hf]
  by_cases hsr : sr ≤ 0
  · simp [hsr]
  · have hnone : (pitchLagList len sr).find? (acceptLag xs) = none := by
      rw [List.find?_eq_none]
      intro τ hτ
      unfold acceptLag
      simp [h τ hτ]
    simp [hsr, hnone]

/-- **C2.** If no lag in the admissible YIN range has cumulative-mean-normalized
difference below the absolute threshold, `detect_pitch_rust` returns the
unvoiced zero result and never fails: its value is `⟨0, 0, false⟩` of the
declared result type — and in particular every all-zero (silent) buffer, at
any length and sample rate, yields that unvoiced zero result. -/
theorem detect_pitch_no_threshold_lag_unvoiced
    (buf : Option (List ℚ)) (len sr : ℤ) (xs : List ℚ)
    (hf : readFrame buf len = some xs)
    (h : ∀ τ ∈ pitchLagList len sr, ¬ cmnd xs τ < yinThreshold) :
    detect_pitch_rust buf len sr = ⟨0, 0, false⟩ ∧
    ∀ (m : ℕ) (len2 sr2 : ℤ),
      detect_pitch_rust (some (List.replicate m 0)) len2 sr2 =
        ⟨0, 0, false⟩ := by
  refine ⟨detect_pitch_sentinel_of_no_threshold buf len sr xs hf h, ?_⟩
  intro m len2 sr2
  by_cases hlen : len2 ≤ 0
  · unfold detect_pitch_rust
    rw [readFrame_nonpos _ hlen]
  · have hfr : readFrame (some (List.replicate m (0 : ℚ))) len2 =
        some ((List.replicate m (0 : ℚ)).take len2.toNat) := by
      unfold readFrame
      dsimp only
      rw [if_neg hlen]
    have hz : ∀ x ∈ (List.replicate m (0 : ℚ)).take len2.toNat, x = 0 :=
      fun x hx => List.eq_of_mem_replicate (List.take_subset _ _ hx)
    refine detect_pitch_sentinel_of_no_threshold _ _ _ _ hfr ?_
    intro τ _
    rw [cmnd_all_zero hz, yinThreshold]
    norm_num

theorem detect_pitch_no_threshold_lag_unvoiced_witness :
    readFrame (some [(0 : ℚ), 0, 0, 0, 0]) 5 = some [(0 : ℚ), 0, 0, 0, 0] ∧
    (∀ τ ∈ pitchLagList 5 200, ¬ cmnd [(0 : ℚ), 0, 0, 0, 0] τ < yinThreshold) ∧
    detect_pitch_rust (some [(0 : ℚ), 0, 0, 0, 0]) 5 200 = ⟨0, 0, false⟩ := by
  have hz : ∀ x ∈ [(0 : ℚ), 0, 0, 0, 0], x = 0 :=
    fun x hx => List.eq_of_mem_replicate (a := (0 : ℚ)) (n := 5) hx
  have hread : readFrame (some [(0 : ℚ), 0, 0, 0, 0]) 5 = some [(0 : ℚ), 0, 0, 0, 0] := rfl
  have hno : ∀ τ ∈ pitchLagList 5 200, ¬ cmnd [(0 : ℚ), 0, 0, 0, 0] τ < yinThreshold := by
    intro τ _
    rw [cmnd_all_zero hz, yinThreshold]
    norm_num
  exact ⟨hread, hno,
    (detect_pitch_no_threshold_lag_unvoiced (some [(0 : ℚ), 0, 0, 0, 0]) 5 200
      [(0 : ℚ), 0, 0, 0, 0] hread hno).1⟩

/-- **C3.** For every input buffer, length, and sample rate, the pitch result
satisfies frequency ≥ 0 and confidence ∈ [0, 1]: although confidence is defined
as 1 − d'(τ), acceptance requires d'(τ) < 0.1, so no clamping is ever needed. -/
theorem detect_pitch_result_invariant (buf : Option (List ℚ)) (len sr : ℤ) :
    0 ≤ (detect_pitch_rust buf len sr).frequency ∧
    0 ≤ (detect_pitch_rust buf len sr).confidence ∧
    (detect_pitch_rust buf len sr).confidence ≤ 1 := by
  unfold detect_pitch_rust
  cases hf : readFrame buf len with
  | none => simp
  | some xs =>
    by_cases hsr : sr ≤ 0
    · simp [hsr]
    · simp only [hsr, if_false]
      cases hfind : (pitchLagList len sr).find? (acceptLag xs) with
      | none => simp
      | some τ =>
        have hacc : acceptLag xs τ = true := List.find?_some hfind
        have hmem : τ ∈ pitchLagList len sr := List.mem_of_find?_eq_some hfind
        have h2 : 2 ≤ τ := mem_pitchLagList_two_le hmem
        unfold acceptLag at hacc
        simp only [Bool.and_eq_true, decide_eq_true_eq] at hacc
        obtain ⟨⟨hthr, hα⟩, hγ⟩ := hacc
        have h0 : 0 ≤ cmnd xs τ := cmnd_nonneg xs τ
        have hthr' : cmnd xs τ < 1 / 10 := hthr
        have hrl : 0 < refineLag xs τ := refineLag_pos xs τ h2 hα hγ
        have hsr' : (0 : ℚ) < (sr : ℚ) := by
          have : (0 : ℤ) < sr := lt_of_not_le hsr
          exact_mod_cast this
        refine ⟨?_, ?_, ?_⟩
        · simp only
          exact le_of_lt (div_pos hsr' hrl)
        · simp only
          linarith
        · simp only
          linarith

/-! ## Formant extraction (LPC), modelled over ℚ

The LPC stage (autocorrelation, Levinson-Durbin, complex pole root-finding)
has no closed form for its roots, so it is abstracted by its output: the list
of candidate poles, each a (center frequency, bandwidth) pair.  The selection
stage — plausibility filtering, ascending sort, assignment to F1/F2/F3 with a
zero sentinel — is modelled in full. -/

/-- Formant extraction result, matching the C struct `FormantsResultC`. -/
structure FormantsResultC where
  f1 : ℚ
  f2 : ℚ
  f3 : ℚ
  bw1 : ℚ
  bw2 : ℚ
  bw3 : ℚ
  deriving DecidableEq, Repr

/-- Modelled from the spec: plausibility floor for a formant frequency (Hz). -/
def formantMinFreq : ℚ := 50

/-- Modelled from the spec: maximal plausible formant bandwidth (Hz). -/
def formantMaxBandwidth : ℚ := 400

/-- Modelled from the spec: a candidate pole survives when its frequency lies
in [50, sample_rate/2] Hz and its bandwidth is not excessive (≤ 400 Hz). -/
def poleKeep (sr : ℤ) (p : ℚ × ℚ) : Bool :=
  decide (formantMinFreq ≤ p.1) && decide (p.1 ≤ (sr : ℚ) / 2) &&
  decide (p.2 ≤ formantMaxBandwidth)

/-- Insert a pole into a list sorted by ascending center frequency. -/
def insertPole (p : ℚ × ℚ) : List (ℚ × ℚ) → List (ℚ × ℚ)
  | [] => [p]
  | q :: rest => if p.1 ≤ q.1 then p :: q :: rest else q :: insertPole p rest

/-- Insertion sort of candidate poles by ascending center frequency. -/
def sortPoles : List (ℚ × ℚ) → List (ℚ × ℚ)
  | [] => []
  | p :: rest => insertPole p (sortPoles rest)

/-- Modelled from the spec: sort the surviving poles by ascending frequency
and assign the lowest three as F1/F2/F3; fewer than three survivors leaves the
remaining slots (and bandwidths) at the sentinel 0. -/
def selectFormants (sr : ℤ) (poles : List (ℚ × ℚ)) : FormantsResultC :=
  match sortPoles (poles.filter (poleKeep sr)) with
  | [] => ⟨0, 0, 0, 0, 0, 0⟩
  | [p] => ⟨p.1, 0, 0, p.2, 0, 0⟩
  | [p, q] => ⟨p.1, q.1, 0, p.2, q.2, 0⟩
  | p :: q :: r :: _ => ⟨p.1, q.1, r.1, p.2, q.2, r.2⟩

/-- Modelled from the spec: `extract_formants_rust`.  The implementation is
absent from the interface header; invalid input degrades to the all-zero
sentinel, and the Levinson-Durbin/root-finding stage — which has no closed
form — is abstracted by its output, the candidate pole list `poles`, on which
the fully modelled filter/sort/assign stage runs. -/
def extract_formants_rust (buf : Option (List ℚ)) (len sr lpcOrder : ℤ)
    (poles : List (ℚ × ℚ)) : FormantsResultC :=
  match readFrame buf len with
  | none => ⟨0, 0, 0, 0, 0, 0⟩
  | some _ => if sr ≤ 0 then ⟨0, 0, 0, 0, 0, 0⟩ else selectFormants sr poles

theorem mem_insertPole {x p : ℚ × ℚ} {l : List (ℚ × ℚ)} :
    x ∈ insertPole p l ↔ x = p ∨ x ∈ l := by
  induction l with
  | nil => simp [insertPole]
  | cons q rest ih =>
    unfold insertPole
    split
    · simp
    · simp [ih]
      tauto

theorem mem_sortPoles {x : ℚ × ℚ} {l : List (ℚ × ℚ)} :
    x ∈ sortPoles l ↔ x ∈ l := by
  induction l with
  | nil => simp [sortPoles]
  | cons p rest ih => simp [sortPoles, mem_insertPole, ih]

theorem length_insertPole (p : ℚ × ℚ) (l : List (ℚ × ℚ)) :
    (insertPole p l).length = l.length + 1 := by
  induction l with
  | nil => rfl
  | cons q rest ih =>
    unfold insertPole
    split
    · simp
    · simp [ih]

theorem length_sortPoles (l : List (ℚ × ℚ)) :
    (sortPoles l).length = l.length := by
  induction l with
  | nil => rfl
  | cons p rest ih => simp [sortPoles, length_insertPole, ih]

theorem sorted_insertPole {p : ℚ × ℚ} {l : List (ℚ × ℚ)}
    (h : l.Sorted (fun a b => a.1 ≤ b.1)) :
    (insertPole p l).Sorted (fun a b => a.1 ≤ b.1) := by
  induction l with
  | nil => simp [insertPole]
  | cons q rest ih =>
    rw [List.sorted_cons] at h
    unfold insertPole
    split
    · rename_i hle
      rw [List.sorted_cons]
      refine ⟨?_, by rw [List.sorted_cons]; exact h⟩
      intro b hb
      rcases List.mem_cons.mp hb with hb | hb
      · rw [hb]; exact hle
      · exact le_trans hle (h.1 b hb)
    · rename_i hgt
      rw [List.sorted_cons]
      refine ⟨?_, ih h.2⟩
      intro b hb
      rcases mem_insertPole.mp hb with hb | hb
      · rw [hb]; exact le_of_not_le hgt
      · exact h.1 b hb

theorem sorted_sortPoles (l : List (ℚ × ℚ)) :
    (sortPoles l).Sorted (fun a b => a.1 ≤ b.1) := by
  induction l with
  | nil => simp [sortPoles]
  | cons p rest ih => exact sorted_insertPole ih

theorem poleKeep_bounds {sr : ℤ} {p : ℚ × ℚ} (h : poleKeep sr p = true) :
    50 ≤ p.1 ∧ p.1 ≤ (sr : ℚ) / 2 ∧ p.2 ≤ 400 := by
  unfold poleKeep formantMinFreq formantMaxBandwidth at h
  simp only [Bool.and_eq_true, decide_eq_true_eq] at h
  exact ⟨h.1.1, h.1.2, h.2⟩

theorem sortPoles_head_bounds {sr : ℤ} {poles : List (ℚ × ℚ)} {p : ℚ × ℚ}
    (h : p ∈ sortPoles (poles.filter (poleKeep sr))) :
    p ∈ poles ∧ 50 ≤ p.1 ∧ p.1 ≤ (sr : ℚ) / 2 ∧ p.2 ≤ 400 := by
  rw [mem_sortPoles, List.mem_filter] at h
  exact ⟨h.1, poleKeep_bounds h.2⟩

/-- **C4.** For every valid input, `extract_formants_rust` keeps only candidate
poles whose frequency lies in [50, sample_rate/2] Hz and whose bandwidth is at
most 400 Hz, assigns the survivors to f1/f2/f3 in ascending frequency order
(every non-sentinel pair satisfies f1 ≤ f2 and f2 ≤ f3), and when fewer than
three survive the remaining formant slots and their bandwidths are the
sentinel 0. -/
theorem extract_formants_spec (buf : Option (List ℚ)) (len sr lpcOrder : ℤ)
    (poles : List (ℚ × ℚ)) (xs : List ℚ)
    (hf : readFrame buf len = some xs) (hsr : 0 < sr) :
    (((extract_formants_rust buf len sr lpcOrder poles).f1 ≠ 0 →
        ((extract_formants_rust buf len sr lpcOrder poles).f1,
         (extract_formants_rust buf len sr lpcOrder poles).bw1) ∈ poles ∧
        50 ≤ (extract_formants_rust buf len sr lpcOrder poles).f1 ∧
        (extract_formants_rust buf len sr lpcOrder poles).f1 ≤ (sr : ℚ) / 2 ∧
        (extract_formants_rust buf len sr lpcOrder poles).bw1 ≤ 400) ∧
     ((extract_formants_rust buf len sr lpcOrder poles).f2 ≠ 0 →
        ((extract_formants_rust buf len sr lpcOrder poles).f2,
         (extract_formants_rust buf len sr lpcOrder poles).bw2) ∈ poles ∧
        50 ≤ (extract_formants_rust buf len sr lpcOrder poles).f2 ∧
        (extract_formants_rust buf len sr lpcOrder poles).f2 ≤ (sr : ℚ) / 2 ∧
        (extract_formants_rust buf len sr lpcOrder poles).bw2 ≤ 400) ∧
     ((extract_formants_rust buf len sr lpcOrder poles).f3 ≠ 0 →
        ((extract_formants_rust buf len sr lpcOrder poles).f3,
         (extract_formants_rust buf len sr lpcOrder poles).bw3) ∈ poles ∧
        50 ≤ (extract_formants_rust buf len sr lpcOrder poles).f3 ∧
        (extract_formants_rust buf len sr lpcOrder poles).f3 ≤ (sr : ℚ) / 2 ∧
        (extract_formants_rust buf len sr lpcOrder poles).bw3 ≤ 400)) ∧
    (((extract_formants_rust buf len sr lpcOrder poles).f2 ≠ 0 →
        (extract_formants_rust buf len sr lpcOrder poles).f1 ≤
        (extract_formants_rust buf len sr lpcOrder poles).f2) ∧
     ((extract_formants_rust buf len sr lpcOrder poles).f3 ≠ 0 →
        (extract_formants_rust buf len sr lpcOrder poles).f2 ≤
        (extract_formants_rust buf len sr lpcOrder poles).f3)) ∧
    (((poles.filter (poleKeep sr)).length < 3 →
        (extract_formants_rust buf len sr lpcOrder poles).f3 = 0 ∧
        (extract_formants_rust buf len sr lpcOrder poles).bw3 = 0) ∧
     ((poles.filter (poleKeep sr)).length < 2 →
        (extract_formants_rust buf len sr lpcOrder poles).f2 = 0 ∧
        (extract_formants_rust buf len sr lpcOrder poles).bw2 = 0) ∧
     ((poles.filter (poleKeep sr)).length = 0 →
        (extract_formants_rust buf len sr lpcOrder poles).f1 = 0 ∧
        (extract_formants_rust buf len sr lpcOrder poles).bw1 = 0)) := by
  have hres : extract_formants_rust buf len sr lpcOrder poles =
      selectFormants sr poles := by
    unfold extract_formants_rust
    rw [hf]
    simp [not_le.mpr hsr]
  rw [hres]
  unfold selectFormants
  have hlen : (sortPoles (poles.filter (poleKeep sr))).length =
      (poles.filter (poleKeep sr)).length := length_sortPoles _
  have hsorted := sorted_sortPoles (poles.filter (poleKeep sr))
  have hmem : ∀ x ∈ sortPoles (poles.filter (poleKeep sr)),
      x ∈ poles ∧ 50 ≤ x.1 ∧ x.1 ≤ (sr : ℚ) / 2 ∧ x.2 ≤ 400 :=
    fun _ hx => sortPoles_head_bounds hx
  generalize hS : sortPoles (poles.filter (poleKeep sr)) = S at hlen hsorted hmem ⊢
  cases S with
  | nil => simp
  | cons p rest =>
    cases rest with
    | nil =>
      have hp := hmem p (List.mem_cons_self _ _)
      refine ⟨⟨fun _ => hp, fun h => absurd rfl h, fun h => absurd rfl h⟩,
        ⟨fun h => absurd rfl h, fun h => absurd rfl h⟩,
        fun _ => ⟨rfl, rfl⟩, fun _ => ⟨rfl, rfl⟩, fun h0 => ?_⟩
      exfalso
      simp at hlen
      omega
    | cons q rest2 =>
      cases rest2 with
      | nil =>
        have hp := hmem p (List.mem_cons_self _ _)
        have hq := hmem q (by simp)
        have hpq : p.1 ≤ q.1 := by
          rw [List.sorted_cons] at hsorted
          exact hsorted.1 q (List.mem_cons_self _ _)
        refine ⟨⟨fun _ => hp, fun _ => hq, fun h => absurd rfl h⟩,
          ⟨fun _ => hpq, fun h => absurd rfl h⟩,
          fun _ => ⟨rfl, rfl⟩, fun h2 => ?_, fun h0 => ?_⟩
        · exfalso
          simp at hlen
          omega
        · exfalso
          simp at hlen
          omega
      | cons r rest3 =>
        have hp := hmem p (List.mem_cons_self _ _)
        have hq := hmem q (by simp)
        have hr := hmem r (by simp)
        have hpq : p.1 ≤ q.1 := by
          rw [List.sorted_cons] at hsorted
          exact hsorted.1 q (List.mem_cons_self _ _)
        have hqr : q.1 ≤ r.1 := by
          rw [List.sorted_cons] at hsorted
          have h2 := hsorted.2
          rw [List.sorted_cons] at h2
          exact h2.1 r (List.mem_cons_self _ _)
        refine ⟨⟨fun _ => hp, fun _ => hq, fun _ => hr⟩,
          ⟨fun _ => hpq, fun _ => hqr⟩,
          fun h3 => ?_, fun h2 => ?_, fun h0 => ?_⟩
        · exfalso
          simp at hlen
          omega
        · exfalso
          simp at hlen
          omega
        · exfalso
          simp at hlen
          omega

theorem extract_formants_spec_witness :
    readFrame (some [(1 : ℚ), -1, 1]) 3 = some [(1 : ℚ), -1, 1] ∧
    (0 : ℤ) < 8000 ∧
    ((extract_formants_rust (some [(1 : ℚ), -1, 1]) 3 8000 10
        [(500, 80), (90, 60), (1500, 120), (5000, 30), (700, 900)]).f2 ≠ 0 →
      (extract_formants_rust (some [(1 : ℚ), -1, 1]) 3 8000 10
        [(500, 80), (90, 60), (1500, 120), (5000, 30), (700, 900)]).f1 ≤
      (extract_formants_rust (some [(1 : ℚ), -1, 1]) 3 8000 10
        [(500, 80), (90, 60), (1500, 120), (5000, 30), (700, 900)]).f2) :=
  ⟨rfl, by norm_num,
    (extract_formants_spec (some [(1 : ℚ), -1, 1]) 3 8000 10
      [(500, 80), (90, 60), (1500, 120), (5000, 30), (700, 900)]
      [(1 : ℚ), -1, 1] rfl (by norm_num)).2.1.1⟩

/-! ## Windowing and FFT engine, modelled over ℝ/ℂ

The magnitude spectrum is the absolute value of the discrete Fourier transform
of the windowed, zero-padded frame.  The buffer ownership handshake of
`compute_fft_rust` / `free_fft_result_rust` is modelled by an explicit
allocation state `FFTHeap`. -/

/-- Modelled from the spec: the window coefficient at index `n` of an `N`-point
window, selected by the `window_type` code (0 rectangular, 1 hamming,
2 hanning, 3 blackman; the interface passes the code as an `int32_t` and the
numeric mapping is not fixed by the header). -/
noncomputable def windowCoeff (wt : ℤ) (N n : ℕ) : ℝ :=
  if wt = 1 then 0.54 - 0.46 * Real.cos (2 * Real.pi * n / ((N : ℝ) - 1))
  else if wt = 2 then 0.5 * (1 - Real.cos (2 * Real.pi * n / ((N : ℝ) - 1)))
  else if wt = 3 then
    0.42 - 0.5 * Real.cos (2 * Real.pi * n / ((N : ℝ) - 1)) +
      0.08 * Real.cos (4 * Real.pi * n / ((N : ℝ) - 1))
  else 1

/-- Modelled from the spec: sample `n` after windowing; indices beyond the
frame read as 0, which is exactly zero-padding to the transform length. -/
noncomputable def windowedSample (wt : ℤ) (N : ℕ) (xs : List ℝ) (n : ℕ) : ℝ :=
  windowCoeff wt N n * xs.getD n 0

/-- Modelled from the spec: DFT bin `k` of the windowed, zero-padded frame. -/
noncomputable def dftBin (wt : ℤ) (N : ℕ) (xs : List ℝ) (k : ℕ) : ℂ :=
  ∑ n ∈ Finset.range N, (windowedSample wt N xs n : ℂ) *
    Complex.exp (-2 * Real.pi * Complex.I * k * n / N)

/-- Modelled from the spec: the magnitude (absolute value) of each of the
first `N/2 + 1` DFT bins. -/
noncomputable def fftMagnitudes (wt : ℤ) (N : ℕ) (xs : List ℝ) : List ℝ :=
  (List.range (N / 2 + 1)).map fun k => Complex.abs (dftBin wt N xs k)

/-- Modelled from the spec: the supported (power-of-two) transform lengths. -/
def supportedFFTSizes : List ℤ :=
  [2, 4, 8, 16, 32, 64, 128, 256, 512, 1024, 2048, 4096, 8192, 16384, 32768]

/-- A transform length is supported when it is one of the power-of-two sizes. -/
def isSupportedFFTSize (n : ℤ) : Prop := n ∈ supportedFFTSizes

instance (n : ℤ) : Decidable (isSupportedFFTSize n) := by
  unfold isSupportedFFTSize
  infer_instance

/-- Modelled from the spec: `compute_fft_rust`.  The implementation is absent
from the interface header; a null buffer, non-positive length, or unsupported
transform length yields the empty (zero-length) spectrum, otherwise the
magnitudes of the first `fft_size/2 + 1` bins of the windowed DFT. -/
noncomputable def compute_fft_rust (buf : Option (List ℝ)) (len fftSize wt : ℤ) :
    List ℝ :=
  match readFrame buf len with
  | none => []
  | some xs =>
    if isSupportedFFTSize fftSize then fftMagnitudes wt fftSize.toNat xs else []

/-- The allocation state for spectrum buffers: a fresh-id counter and the list
of live allocations.  Models the caller-release contract of the header
("caller must free with free_fft_result_rust"). -/
structure FFTHeap where
  next : ℕ
  live : List (ℕ × List ℝ)

/-- Well-formedness: every live pointer was allocated below the counter. -/
def FFTHeap.WF (σ : FFTHeap) : Prop := ∀ e ∈ σ.live, e.1 < σ.next

/-- `compute_fft_rust` as observed through the heap: allocates a fresh buffer
holding the magnitudes and returns its pointer; ownership is the caller's. -/
noncomputable def computeFFTAlloc (σ : FFTHeap) (buf : Option (List ℝ))
    (len fftSize wt : ℤ) : ℕ × FFTHeap :=
  (σ.next, ⟨σ.next + 1, (σ.next, compute_fft_rust buf len fftSize wt) :: σ.live⟩)

/-- The buffer a pointer designates, when it is live. -/
def lookupBuf (σ : FFTHeap) (p : ℕ) : Option (List ℝ) :=
  (σ.live.find? fun e => e.1 == p).map Prod.snd

/-- Modelled from the spec: `free_fft_result_rust` releases a live buffer
exactly once; releasing a pointer that is not live (never allocated, or
already released) is an invalid call, modelled as `none`. -/
def free_fft_result_rust (σ : FFTHeap) (p : ℕ) : Option FFTHeap :=
  if (σ.live.find? fun e => e.1 == p).isSome then
    some ⟨σ.next, σ.live.filter fun e => !(e.1 == p)⟩
  else none

theorem isSupportedFFTSize_pos {n : ℤ} (h : isSupportedFFTSize n) : 0 < n := by
  unfold isSupportedFFTSize supportedFFTSizes at h
  simp at h
  omega

theorem lookupBuf_fresh {σ : FFTHeap} (hWF : σ.WF) : lookupBuf σ σ.next = none := by
  unfold lookupBuf
  rw [List.find?_eq_none.mpr]
  · rfl
  · intro e he
    have := hWF e he
    simp
    omega

theorem getD_map_range {α : Type} (f : ℕ → α) (M k : ℕ) (z : α) (hk : k < M) :
    ((List.range M).map f).getD k z = f k := by
  rw [List.getD_eq_getElem?_getD]
  rw [List.getElem?_eq_getElem (by simpa using hk)]
  simp

/-- **C5.** For every valid input and supported fft_size, `compute_fft_rust`
produces exactly fft_size/2 + 1 magnitudes, each non-negative and equal to the
absolute value of the corresponding DFT bin of the windowed, zero-padded
frame; the buffer is freshly allocated, owned by the caller, released exactly
once by `free_fft_result_rust` — after which the pointer is dead and a second
release fails. -/
theorem compute_fft_contract (σ : FFTHeap) (buf : Option (List ℝ))
    (len fftSize wt : ℤ) (xs : List ℝ)
    (hf : readFrame buf len = some xs) (hsup : isSupportedFFTSize fftSize)
    (hWF : σ.WF) :
    ((compute_fft_rust buf len fftSize wt).length : ℤ) = fftSize / 2 + 1 ∧
    (∀ m ∈ compute_fft_rust buf len fftSize wt, 0 ≤ m) ∧
    (∀ k, k < fftSize.toNat / 2 + 1 →
      (compute_fft_rust buf len fftSize wt).getD k 0 =
        Complex.abs (dftBin wt fftSize.toNat xs k)) ∧
    lookupBuf σ (computeFFTAlloc σ buf len fftSize wt).1 = none ∧
    lookupBuf (computeFFTAlloc σ buf len fftSize wt).2
        (computeFFTAlloc σ buf len fftSize wt).1 =
      some (compute_fft_rust buf len fftSize wt) ∧
    free_fft_result_rust (computeFFTAlloc σ buf len fftSize wt).2
        (computeFFTAlloc σ buf len fftSize wt).1 =
      some ⟨σ.next + 1, σ.live⟩ ∧
    lookupBuf ⟨σ.next + 1, σ.live⟩ (computeFFTAlloc σ buf len fftSize wt).1 =
      none ∧
    free_fft_result_rust ⟨σ.next + 1, σ.live⟩
        (computeFFTAlloc σ buf len fftSize wt).1 = none := by
  have hpos := isSupportedFFTSize_pos hsup
  have hmags : compute_fft_rust buf len fftSize wt =
      fftMagnitudes wt fftSize.toNat xs := by
    unfold compute_fft_rust
    rw [hf]
    simp [hsup]
  have hfil : (σ.live.filter fun e => !(e.1 == σ.next)) = σ.live :=
    List.filter_eq_self.mpr fun e he => by
      have := hWF e he
      simp
      omega
  have hnolive : ∀ e ∈ σ.live, ¬((fun q => q.1 == σ.next) e = true) := by
    intro e he
    have := hWF e he
    simp
    omega
  refine ⟨?_, ?_, ?_, ?_, ?_, ?_, ?_, ?_⟩
  · rw [hmags]
    unfold fftMagnitudes
    simp only [List.length_map, List.length_range]
    have hcast : (fftSize.toNat : ℤ) = fftSize := Int.toNat_of_nonneg (le_of_lt hpos)
    omega
  · rw [hmags]
    unfold fftMagnitudes
    intro m hm
    rcases List.mem_map.mp hm with ⟨k, _, rfl⟩
    exact AbsoluteValue.nonneg Complex.abs _
  · intro k hk
    rw [hmags]
    unfold fftMagnitudes
    exact getD_map_range _ _ _ _ hk
  · exact lookupBuf_fresh hWF
  · unfold computeFFTAlloc lookupBuf
    rw [List.find?_cons_of_pos _ (by simp)]
    rfl
  · unfold computeFFTAlloc free_fft_result_rust
    rw [List.find?_cons_of_pos _ (by simp)]
    simp only [Option.isSome_some, if_true]
    rw [List.filter_cons_of_neg (by simp), hfil]
  · unfold computeFFTAlloc lookupBuf
    rw [List.find?_eq_none.mpr hnolive]
    rfl
  · unfold computeFFTAlloc free_fft_result_rust
    rw [List.find?_eq_none.mpr hnolive]
    rfl

theorem compute_fft_contract_witness :
    readFrame (some [(1 : ℝ)]) 1 = some [(1 : ℝ)] ∧
    isSupportedFFTSize 2 ∧
    FFTHeap.WF ⟨0, []⟩ ∧
    ((compute_fft_rust (some [(1 : ℝ)]) 1 2 0).length : ℤ) = 2 / 2 + 1 :=
  ⟨rfl, by decide, fun e he => by simp at he,
    (compute_fft_contract ⟨0, []⟩ (some [(1 : ℝ)]) 1 2 0 [(1 : ℝ)] rfl
      (by decide) (fun e he => by simp at he)).1⟩

/-! ## Spectral analyzer, modelled over ℝ -/

/-- Spectrum analysis result, matching the C struct `SpectrumResultC`. -/
structure SpectrumResultC where
  centroid : ℝ
  rolloff : ℝ
  tilt : ℝ

/-- The center frequency of bin `k` of an `N`-point transform. -/
noncomputable def binFreq (sr : ℤ) (N k : ℕ) : ℝ := (k : ℝ) * (sr : ℝ) / (N : ℝ)

/-- Modelled from the spec: centroid = Σ(f_k·m_k)/Σ(m_k), reported as 0 when
the total magnitude is zero (a silent frame) instead of dividing by zero. -/
noncomputable def centroidOf (mags : List ℝ) (sr : ℤ) (N : ℕ) : ℝ :=
  if mags.sum = 0 then 0
  else (∑ k ∈ Finset.range mags.length, binFreq sr N k * mags.getD k 0) / mags.sum

/-- Cumulative magnitude up to and including bin `k`. -/
noncomputable def cumMag (mags : List ℝ) (k : ℕ) : ℝ :=
  ∑ i ∈ Finset.range (k + 1), mags.getD i 0

/-- Modelled from the spec: rolloff = the frequency of the first bin at which
the cumulative magnitude reaches 0.85 of the total (the first bin, hence 0 Hz,
on a silent frame). -/
noncomputable def rolloffOf (mags : List ℝ) (sr : ℤ) (N : ℕ) : ℝ :=
  match (List.range mags.length).find?
      (fun k => decide (0.85 * mags.sum ≤ cumMag mags k)) with
  | some k => binFreq sr N k
  | none => 0

/-- Modelled from the spec: tilt = least-squares slope of log-magnitude
against log-frequency over the nonzero-frequency bins, with zero-total and
degenerate-fit guards reporting the floor value 0. -/
noncomputable def tiltOf (mags : List ℝ) (sr : ℤ) (N : ℕ) : ℝ :=
  if mags.sum = 0 then 0
  else
    let pts := (List.range mags.length).filterMap fun k =>
      if k = 0 then none
      else some (Real.log (binFreq sr N k), Real.log (mags.getD k 0))
    let n : ℝ := pts.length
    let sx := (pts.map Prod.fst).sum
    let sy := (pts.map Prod.snd).sum
    let sxx := (pts.map fun p => p.1 ^ 2).sum
    let sxy := (pts.map fun p => p.1 * p.2).sum
    if n * sxx - sx ^ 2 = 0 then 0 else (n * sxy - sx * sy) / (n * sxx - sx ^ 2)

/-- Modelled from the spec: `analyze_spectrum_rust` — centroid, rolloff and
tilt of the magnitude spectrum of the frame (computed internally with a
rectangular window at the frame length), with invalid input degrading to the
zero result. -/
noncomputable def analyze_spectrum_rust (buf : Option (List ℝ)) (len sr : ℤ) :
    SpectrumResultC :=
  match readFrame buf len with
  | none => ⟨0, 0, 0⟩
  | some xs =>
    if sr ≤ 0 then ⟨0, 0, 0⟩
    else
      ⟨centroidOf (fftMagnitudes 0 len.toNat xs) sr len.toNat,
       rolloffOf (fftMagnitudes 0 len.toNat xs) sr len.toNat,
       tiltOf (fftMagnitudes 0 len.toNat xs) sr len.toNat⟩

theorem dftBin_all_zero {xs : List ℝ} (h : ∀ x ∈ xs, x = 0) (wt : ℤ) (N k : ℕ) :
    dftBin wt N xs k = 0 := by
  unfold dftBin
  refine Finset.sum_eq_zero fun n _ => ?_
  unfold windowedSample
  rw [getD_eq_of_all_eq h]
  simp

theorem fftMagnitudes_all_zero {xs : List ℝ} (h : ∀ x ∈ xs, x = 0)
    (wt : ℤ) (N : ℕ) : ∀ m ∈ fftMagnitudes wt N xs, m = 0 := by
  intro m hm
  unfold fftMagnitudes at hm
  rcases List.mem_map.mp hm with ⟨k, _, rfl⟩
  rw [dftBin_all_zero h]
  simp

/-- **C6.** On a zero-energy (silent) frame, `analyze_spectrum_rust` never
divides by the zero total magnitude: the centroid is 0, and rolloff and tilt
are the zero/floor values, not NaN or infinities. -/
theorem analyze_spectrum_silent (buf : Option (List ℝ)) (len sr : ℤ)
    (xs : List ℝ) (hf : readFrame buf len = some xs)
    (hz : ∀ x ∈ xs, x = 0) (hsr : 0 < sr) :
    analyze_spectrum_rust buf len sr = ⟨0, 0, 0⟩ := by
  have hmz : ∀ m ∈ fftMagnitudes 0 len.toNat xs, m = 0 :=
    fftMagnitudes_all_zero hz 0 len.toNat
  have hsum : (fftMagnitudes 0 len.toNat xs).sum = 0 := List.sum_eq_zero hmz
  have hcum0 : cumMag (fftMagnitudes 0 len.toNat xs) 0 = 0 := by
    unfold cumMag
    rw [Finset.sum_range_one, getD_eq_of_all_eq hmz]
  unfold analyze_spectrum_rust
  rw [hf]
  dsimp only
  rw [if_neg (not_le.mpr hsr)]
  have hcen : centroidOf (fftMagnitudes 0 len.toNat xs) sr len.toNat = 0 := by
    unfold centroidOf
    rw [if_pos hsum]
  have hlenM : (fftMagnitudes 0 len.toNat xs).length = len.toNat / 2 + 1 := by
    unfold fftMagnitudes
    simp
  have hrol : rolloffOf (fftMagnitudes 0 len.toNat xs) sr len.toNat = 0 := by
    unfold rolloffOf
    rw [hlenM, List.range_succ_eq_map,
      List.find?_cons_of_pos _ (by
        rw [decide_eq_true_eq, hsum, hcum0]
        norm_num)]
    unfold binFreq
    simp
  have htil : tiltOf (fftMagnitudes 0 len.toNat xs) sr len.toNat = 0 := by
    unfold tiltOf
    rw [if_pos hsum]
  rw [hcen, hrol, htil]

theorem analyze_spectrum_silent_witness :
    readFrame (some [(0 : ℝ), 0, 0, 0]) 4 = some [(0 : ℝ), 0, 0, 0] ∧
    (∀ x ∈ [(0 : ℝ), 0, 0, 0], x = 0) ∧
    (0 : ℤ) < 8000 ∧
    analyze_spectrum_rust (some [(0 : ℝ), 0, 0, 0]) 4 8000 = ⟨0, 0, 0⟩ := by
  have hz : ∀ x ∈ [(0 : ℝ), 0, 0, 0], x = 0 :=
    fun x hx => List.eq_of_mem_replicate (a := (0 : ℝ)) (n := 4) hx
  exact ⟨rfl, hz, by norm_num,
    analyze_spectrum_silent (some [(0 : ℝ), 0, 0, 0]) 4 8000 [(0 : ℝ), 0, 0, 0]
      rfl hz (by norm_num)⟩

/-! ## Harmonicity analyzer (HNR), modelled over ℝ -/

/-- HNR result, matching the C struct `HNRResultC`. -/
structure HNRResultC where
  hnr : ℝ
  f0 : ℝ
  is_voiced : Bool

/-- Modelled from the spec: the sentinel low HNR reported when no valid
autocorrelation peak exists. -/
noncomputable def hnrSentinel : ℝ := -100

/-- Modelled from the spec: the voicing threshold on the autocorrelation
peak (canonical 0.3). -/
noncomputable def hnrVoicingThreshold : ℝ := 0.3

/-- Modelled from the spec: clamp margin keeping the HNR ratio away from
log(0) and division by zero. -/
noncomputable def hnrClampEps : ℝ := 1 / 1000000

/-- Modelled from the spec: normalized autocorrelation
r(τ) = Σ x[i]x[i+τ] / sqrt(Σ x[i]² · Σ x[i+τ]²), summed over the overlap. -/
noncomputable def autocorrNorm (xs : List ℝ) (τ : ℕ) : ℝ :=
  (∑ i ∈ Finset.range (xs.length - τ), xs.getD i 0 * xs.getD (i + τ) 0) /
    Real.sqrt ((∑ i ∈ Finset.range (xs.length - τ), xs.getD i 0 ^ 2) *
      (∑ i ∈ Finset.range (xs.length - τ), xs.getD (i + τ) 0 ^ 2))

/-- Modelled from the spec: the admissible lag range
[sample_rate/max_freq, sample_rate/min_freq], excluding τ = 0 and bounded by
the frame length. -/
noncomputable def hnrLagList (len sr : ℤ) (minFreq maxFreq : ℝ) : List ℕ :=
  let lo : ℤ := max 1 ⌈(sr : ℝ) / maxFreq⌉
  let hi : ℤ := min (len - 1) ⌊(sr : ℝ) / minFreq⌋
  if lo ≤ hi then List.range' lo.toNat (hi + 1 - lo).toNat else []

/-- The running argmax of the normalized autocorrelation over a lag list. -/
noncomputable def bestPeak (xs : List ℝ) (lags : List ℕ) : Option (ℕ × ℝ) :=
  lags.foldl
    (fun acc τ =>
      match acc with
      | none => some (τ, autocorrNorm xs τ)
      | some (τ0, r0) =>
        if r0 < autocorrNorm xs τ then some (τ, autocorrNorm xs τ)
        else some (τ0, r0))
    none

/-- Modelled from the spec: the peak is valid when the lag range is nonempty
and the peak autocorrelation is positive. -/
noncomputable def findPeak (xs : List ℝ) (len sr : ℤ) (minFreq maxFreq : ℝ) :
    Option (ℕ × ℝ) :=
  match bestPeak xs (hnrLagList len sr minFreq maxFreq) with
  | none => none
  | some (τ, r) => if 0 < r then some (τ, r) else none

/-- Modelled from the spec: HNR(dB) = 10·log10(r/(1−r)) with r clamped into
[ε, 1−ε] to stay away from log(0). -/
noncomputable def hnrOfR (r : ℝ) : ℝ :=
  10 * Real.logb 10 (max hnrClampEps (min r (1 - hnrClampEps)) /
    (1 - max hnrClampEps (min r (1 - hnrClampEps))))

/-- Modelled from the spec: `calculate_hnr_rust` (Boersma autocorrelation
method).  Invalid input or a missing valid peak degrades to the unvoiced
sentinel; a valid peak r(τ*) yields hnr = 10·log10(r/(1−r)) (clamped),
f0 = sample_rate/τ*, and voicing by the 0.3 threshold. -/
noncomputable def calculate_hnr_rust (buf : Option (List ℝ)) (len sr : ℤ)
    (minFreq maxFreq : ℝ) : HNRResultC :=
  match readFrame buf len with
  | none => ⟨hnrSentinel, 0, false⟩
  | some xs =>
    if sr ≤ 0 then ⟨hnrSentinel, 0, false⟩
    else
      match findPeak xs len sr minFreq maxFreq with
      | none => ⟨hnrSentinel, 0, false⟩
      | some (τ, r) =>
        ⟨hnrOfR r, (sr : ℝ) / (τ : ℝ), decide (hnrVoicingThreshold < r)⟩

theorem bestPeak_foldl_spec (xs : List ℝ) (lags : List ℕ) :
    ∀ (acc : Option (ℕ × ℝ)) (τ : ℕ) (r : ℝ),
      lags.foldl
          (fun acc τ =>
            match acc with
            | none => some (τ, autocorrNorm xs τ)
            | some (τ0, r0) =>
              if r0 < autocorrNorm xs τ then some (τ, autocorrNorm xs τ)
              else some (τ0, r0))
          acc = some (τ, r) →
      (acc = some (τ, r) ∨ (τ ∈ lags ∧ r = autocorrNorm xs τ)) ∧
      (∀ τ2 ∈ lags, autocorrNorm xs τ2 ≤ r) ∧
      (∀ τ0 r0, acc = some (τ0, r0) → r0 ≤ r) := by
  induction lags with
  | nil =>
    intro acc τ r h
    simp at h
    refine ⟨Or.inl h, by simp, ?_⟩
    intro τ0 r0 h0
    rw [h0] at h
    cases h
    rfl
  | cons t rest ih =>
    intro acc τ r h
    rw [List.foldl_cons] at h
    obtain ⟨horigin, hball, haccle⟩ := ih _ τ r h
    have hstep_le : ∀ τ1 r1,
        (match acc with
          | none => some (t, autocorrNorm xs t)
          | some (τ0, r0) =>
            if r0 < autocorrNorm xs t then some (t, autocorrNorm xs t)
            else some (τ0, r0)) = some (τ1, r1) → r1 ≤ r := haccle
    have hstep_t : autocorrNorm xs t ≤ r := by
      cases acc with
      | none => exact hstep_le t (autocorrNorm xs t) rfl
      | some pair =>
        rcases pair with ⟨τ0, r0⟩
        by_cases hlt : r0 < autocorrNorm xs t
        · exact hstep_le t (autocorrNorm xs t) (by simp [hlt])
        · exact le_trans (le_of_not_lt hlt) (hstep_le τ0 r0 (by simp [hlt]))
    refine ⟨?_, ?_, ?_⟩
    · rcases horigin with horigin | horigin
      · cases acc with
        | none =>
          dsimp only at horigin
          rw [Option.some.injEq, Prod.mk.injEq] at horigin
          rcases horigin with ⟨ht, hr⟩
          subst ht
          exact Or.inr ⟨List.mem_cons_self _ _, hr.symm⟩
        | some pair =>
          rcases pair with ⟨τ0, r0⟩
          dsimp only at horigin
          by_cases hlt : r0 < autocorrNorm xs t
          · rw [if_pos hlt, Option.some.injEq, Prod.mk.injEq] at horigin
            rcases horigin with ⟨ht, hr⟩
            subst ht
            exact Or.inr ⟨List.mem_cons_self _ _, hr.symm⟩
          · rw [if_neg hlt] at horigin
            exact Or.inl horigin
      · exact Or.inr ⟨List.mem_cons_of_mem t horigin.1, horigin.2⟩
    · intro τ2 hτ2
      rcases List.mem_cons.mp hτ2 with hτ2 | hτ2
      · rw [hτ2]; exact hstep_t
      · exact hball τ2 hτ2
    · intro τ0 r0 h0
      rw [h0] at hstep_le
      dsimp only at hstep_le
      by_cases hlt : r0 < autocorrNorm xs t
      · exact le_trans (le_of_lt hlt) hstep_t
      · exact hstep_le τ0 r0 (by rw [if_neg hlt])

theorem bestPeak_spec {xs : List ℝ} {lags : List ℕ} {τ : ℕ} {r : ℝ}
    (h : bestPeak xs lags = some (τ, r)) :
    τ ∈ lags ∧ r = autocorrNorm xs τ ∧
      ∀ τ2 ∈ lags, autocorrNorm xs τ2 ≤ r := by
  obtain ⟨horigin, hball, _⟩ := bestPeak_foldl_spec xs lags none τ r h
  rcases horigin with horigin | horigin
  · cases horigin
  · exact ⟨horigin.1, horigin.2, hball⟩

/-- **C7.** When `calculate_hnr_rust` finds a valid autocorrelation peak
(τ*, r) in the admissible lag range (τ = 0 excluded by construction), the
result is hnr = 10·log10(r/(1−r)) with the ratio clamped away from log(0),
f0 = sample_rate/τ*, and is_voiced exactly when r exceeds the 0.3 voicing
threshold; the peak is the maximum of r over the admissible range and is
positive.  When no valid peak exists the result is the unvoiced sentinel. -/
theorem calculate_hnr_peak_spec (buf : Option (List ℝ)) (len sr : ℤ)
    (minFreq maxFreq : ℝ) (xs : List ℝ)
    (hf : readFrame buf len = some xs) (hsr : 0 < sr) :
    (∀ τ r, findPeak xs len sr minFreq maxFreq = some (τ, r) →
      calculate_hnr_rust buf len sr minFreq maxFreq =
        ⟨hnrOfR r, (sr : ℝ) / (τ : ℝ), decide (hnrVoicingThreshold < r)⟩ ∧
      τ ∈ hnrLagList len sr minFreq maxFreq ∧
      r = autocorrNorm xs τ ∧ 0 < r ∧
      (∀ τ2 ∈ hnrLagList len sr minFreq maxFreq, autocorrNorm xs τ2 ≤ r) ∧
      ((calculate_hnr_rust buf len sr minFreq maxFreq).is_voiced = true ↔
        hnrVoicingThreshold < r)) ∧
    (findPeak xs len sr minFreq maxFreq = none →
      calculate_hnr_rust buf len sr minFreq maxFreq =
        ⟨hnrSentinel, 0, false⟩) := by
  have hcal : ∀ v, findPeak xs len sr minFreq maxFreq = v →
      calculate_hnr_rust buf len sr minFreq maxFreq =
        (match v with
          | none => ⟨hnrSentinel, 0, false⟩
          | some (τ, r) =>
            ⟨hnrOfR r, (sr : ℝ) / (τ : ℝ), decide (hnrVoicingThreshold < r)⟩) := by
    intro v hv
    unfold calculate_hnr_rust
    rw [hf]
    dsimp only
    rw [if_neg (not_le.mpr hsr), hv]
  constructor
  · intro τ r hp
    have heq := hcal _ hp
    unfold findPeak at hp
    cases hb : bestPeak xs (hnrLagList len sr minFreq maxFreq) with
    | none => rw [hb] at hp; cases hp
    | some pair =>
      rcases pair with ⟨τ1, r1⟩
      rw [hb] at hp
      dsimp only at hp
      by_cases hpos : 0 < r1
      · rw [if_pos hpos, Option.some.injEq, Prod.mk.injEq] at hp
        rcases hp with ⟨hτ, hr⟩
        subst hτ
        subst hr
        obtain ⟨hmem, hval, hmax⟩ := bestPeak_spec hb
        refine ⟨heq, hmem, hval, hpos, hmax, ?_⟩
        rw [heq]
        simp
      · rw [if_neg hpos] at hp
        cases hp
  · intro hp
    exact hcal none hp

theorem calculate_hnr_peak_spec_witness :
    readFrame (some [(1 : ℝ), 1]) 2 = some [(1 : ℝ), 1] ∧
    (0 : ℤ) < 100 ∧
    (findPeak [(1 : ℝ), 1] 2 100 100 100 = none →
      calculate_hnr_rust (some [(1 : ℝ), 1]) 2 100 100 100 =
        ⟨hnrSentinel, 0, false⟩) :=
  ⟨rfl, by norm_num,
    (calculate_hnr_peak_spec (some [(1 : ℝ), 1]) 2 100 100 100 [(1 : ℝ), 1]
      rfl (by norm_num)).2⟩

/-- **C10 (amended).** When the pitch-range parameters make the admissible lag
range genuinely empty — `min_freq ≤ 0`, or `0 < max_freq < min_freq` — the
`calculate_hnr_rust` call still returns the well-formed unvoiced sentinel
result `⟨hnrSentinel, 0, false⟩`.  (With `min_freq = max_freq`, or with
`max_freq ≤ 0 < min_freq`, the lag range can still be nonempty and a genuine
voiced peak can be reported — see the counterexample.) -/
theorem calculate_hnr_empty_range (buf : Option (List ℝ)) (len sr : ℤ)
    (minFreq maxFreq : ℝ)
    (h : minFreq ≤ 0 ∨ (0 < maxFreq ∧ maxFreq < minFreq)) :
    calculate_hnr_rust buf len sr minFreq maxFreq =
      ⟨hnrSentinel, 0, false⟩ := by
  unfold calculate_hnr_rust
  cases hf : readFrame buf len with
  | none => rfl
  | some xs =>
    dsimp only
    by_cases hsr : sr ≤ 0
    · rw [if_pos hsr]
    · rw [if_neg hsr]
      have hsrR : (0 : ℝ) < (sr : ℝ) := by
        have hz : (0 : ℤ) < sr := lt_of_not_le hsr
        exact_mod_cast hz
      have hnotle : ¬ (max 1 ⌈(sr : ℝ) / maxFreq⌉ ≤
          min (len - 1) ⌊(sr : ℝ) / minFreq⌋) := by
        rcases h with h | ⟨hmax, hlt⟩
        · have hdiv : (sr : ℝ) / minFreq ≤ 0 :=
            div_nonpos_iff.mpr (Or.inl ⟨le_of_lt hsrR, h⟩)
          have hfl : ⌊(sr : ℝ) / minFreq⌋ ≤ 0 := Int.floor_nonpos hdiv
          intro hle
          have h1 : (1 : ℤ) ≤ min (len - 1) ⌊(sr : ℝ) / minFreq⌋ :=
            le_trans (le_max_left _ _) hle
          have h2 : min (len - 1) ⌊(sr : ℝ) / minFreq⌋ ≤ 0 :=
            le_trans (min_le_right _ _) hfl
          omega
        · have hab : (sr : ℝ) / minFreq < (sr : ℝ) / maxFreq :=
            div_lt_div_of_pos_left hsrR hmax hlt
          have hfc : ⌊(sr : ℝ) / minFreq⌋ < ⌈(sr : ℝ) / maxFreq⌉ := by
            have h1 : (⌊(sr : ℝ) / minFreq⌋ : ℝ) ≤ (sr : ℝ) / minFreq :=
              Int.floor_le _
            have h2 : (sr : ℝ) / maxFreq ≤ (⌈(sr : ℝ) / maxFreq⌉ : ℝ) :=
              Int.le_ceil _
            have hcast : (⌊(sr : ℝ) / minFreq⌋ : ℝ) <
                (⌈(sr : ℝ) / maxFreq⌉ : ℝ) := by linarith
            exact_mod_cast hcast
          intro hle
          have h1 : ⌈(sr : ℝ) / maxFreq⌉ ≤ min (len - 1) ⌊(sr : ℝ) / minFreq⌋ :=
            le_trans (le_max_right _ _) hle
          have h2 : min (len - 1) ⌊(sr : ℝ) / minFreq⌋ ≤
              ⌊(sr : ℝ) / minFreq⌋ := min_le_right _ _
          omega
      have hempty : hnrLagList len sr minFreq maxFreq = [] := by
        unfold hnrLagList
        dsimp only
        rw [if_neg hnotle]
      have hfp : findPeak xs len sr minFreq maxFreq = none := by
        unfold findPeak
        rw [hempty]
        rfl
      rw [hfp]

theorem calculate_hnr_empty_range_witness :
    ((-1 : ℝ) ≤ 0 ∨ ((0 : ℝ) < 50 ∧ (50 : ℝ) < -1)) ∧
    calculate_hnr_rust (some [(1 : ℝ), 1]) 2 100 (-1) 50 =
      ⟨hnrSentinel, 0, false⟩ :=
  ⟨Or.inl (by norm_num),
    calculate_hnr_empty_range (some [(1 : ℝ), 1]) 2 100 (-1) 50
      (Or.inl (by norm_num))⟩

/-- **C10 (counterexample to the original claim).** The original claim states
that `min_freq ≥ max_freq` always yields an unvoiced sentinel result, but with
`min_freq = max_freq = 100` at sample rate 100 the admissible lag range
[sr/max_freq, sr/min_freq] is the single lag τ = 1, where a constant frame has
normalized autocorrelation 1 > 0.3 — the call reports a voiced result. -/
theorem calculate_hnr_equal_range_voiced :
    (100 : ℝ) ≥ (100 : ℝ) ∧
    (calculate_hnr_rust (some [(1 : ℝ), 1]) 2 100 100 100).is_voiced = true := by
  refine ⟨le_refl _, ?_⟩
  have hr : autocorrNorm [(1 : ℝ), 1] 1 = 1 := by
    unfold autocorrNorm
    norm_num [Finset.sum_range_one, List.getD_cons_zero, List.getD_cons_succ,
      Real.sqrt_one]
  have hlag : hnrLagList 2 100 100 100 = [1] := by
    unfold hnrLagList
    have hdiv : ((100 : ℤ) : ℝ) / (100 : ℝ) = 1 := by norm_num
    dsimp only
    rw [hdiv, Int.ceil_one, Int.floor_one]
    decide
  have hbp : bestPeak [(1 : ℝ), 1] [1] = some (1, 1) := by
    unfold bestPeak
    rw [List.foldl_cons, List.foldl_nil]
    dsimp only
    rw [hr]
  have hfp : findPeak [(1 : ℝ), 1] 2 100 100 100 = some (1, 1) := by
    unfold findPeak
    rw [hlag, hbp]
    dsimp only
    rw [if_pos (by norm_num : (0 : ℝ) < 1)]
  unfold calculate_hnr_rust
  rw [show readFrame (some [(1 : ℝ), 1]) 2 = some [(1 : ℝ), 1] from rfl]
  dsimp only
  rw [if_neg (by norm_num : ¬ (100 : ℤ) ≤ 0), hfp]
  dsimp only
  rw [decide_eq_true_eq]
  unfold hnrVoicingThreshold
  norm_num

/-! ## Harmonic amplitude analyzer (H1-H2), modelled over ℝ -/

/-- H1-H2 result, matching the C struct `H1H2ResultC`. -/
structure H1H2ResultC where
  h1h2 : ℝ
  h1_amplitude_db : ℝ
  h2_amplitude_db : ℝ
  f0 : ℝ

/-- Modelled from the spec: dB floor avoiding −∞ on zero magnitude. -/
noncomputable def dbFloor : ℝ := -100

/-- Modelled from the spec: amplitude-to-dB conversion, 20·log10(a), floored. -/
noncomputable def ampToDb (a : ℝ) : ℝ :=
  if a ≤ 0 then dbFloor else max dbFloor (20 * Real.logb 10 a)

/-- Modelled from the spec: the internal transform length used by the H1-H2
analysis (a fixed supported power of two; the header does not expose it). -/
def h1h2FFTSize : ℕ := 1024

/-- Modelled from the spec: the spectral bin nearest a frequency. -/
noncomputable def nearestBin (sr : ℤ) (f : ℝ) : ℤ :=
  ⌊f * (h1h2FFTSize : ℝ) / (sr : ℝ) + 1 / 2⌋

/-- Modelled from the spec: the local magnitude peak in a ±2-bin
neighbourhood of a target bin (harmonics rarely land on a bin center). -/
noncomputable def peakNear (mags : List ℝ) (k : ℤ) : ℝ :=
  ((List.range 5).map fun j => mags.getD (k - 2 + j).toNat 0).foldl max 0

/-- Modelled from the spec: `calculate_h1h2_rust`.  Invalid input, f0 ≤ 0, or
2·f0 beyond Nyquist degrade to the all-zero sentinel; otherwise H1 and H2 are
the dB amplitudes of the local spectral peaks nearest f0 and 2·f0. -/
noncomputable def calculate_h1h2_rust (buf : Option (List ℝ)) (len sr : ℤ)
    (f0 : ℝ) : H1H2ResultC :=
  match readFrame buf len with
  | none => ⟨0, 0, 0, 0⟩
  | some xs =>
    if sr ≤ 0 then ⟨0, 0, 0, 0⟩
    else if f0 ≤ 0 ∨ (sr : ℝ) / 2 < 2 * f0 then ⟨0, 0, 0, 0⟩
    else
      ⟨ampToDb (peakNear (fftMagnitudes 0 h1h2FFTSize xs) (nearestBin sr f0)) -
         ampToDb (peakNear (fftMagnitudes 0 h1h2FFTSize xs)
           (nearestBin sr (2 * f0))),
       ampToDb (peakNear (fftMagnitudes 0 h1h2FFTSize xs) (nearestBin sr f0)),
       ampToDb (peakNear (fftMagnitudes 0 h1h2FFTSize xs)
         (nearestBin sr (2 * f0))),
       f0⟩

/-- **C8.** Whenever f0 ≤ 0 or 2·f0 exceeds the Nyquist frequency
(sample_rate/2), `calculate_h1h2_rust` does not fail: it returns the
all-zero sentinel `H1H2ResultC`. -/
theorem calculate_h1h2_out_of_range (buf : Option (List ℝ)) (len sr : ℤ)
    (f0 : ℝ) (h : f0 ≤ 0 ∨ (sr : ℝ) / 2 < 2 * f0) :
    calculate_h1h2_rust buf len sr f0 = ⟨0, 0, 0, 0⟩ := by
  unfold calculate_h1h2_rust
  cases hf : readFrame buf len with
  | none => rfl
  | some xs =>
    dsimp only
    by_cases hsr : sr ≤ 0
    · rw [if_pos hsr]
    · rw [if_neg hsr, if_pos h]

theorem calculate_h1h2_out_of_range_witness :
    ((-1 : ℝ) ≤ 0 ∨ ((8000 : ℤ) : ℝ) / 2 < 2 * (-1 : ℝ)) ∧
    calculate_h1h2_rust (some [(1 : ℝ), 2]) 2 8000 (-1) = ⟨0, 0, 0, 0⟩ :=
  ⟨Or.inl (by norm_num),
    calculate_h1h2_out_of_range (some [(1 : ℝ), 2]) 2 8000 (-1)
      (Or.inl (by norm_num))⟩

/-- **C1.** A null buffer pointer or a non-positive length never crashes any
public analysis call: every function returns a value of its declared result
type with the documented sentinel/zero fields (for `compute_fft_rust`, the
empty zero-length spectrum). -/
theorem invalid_input_sentinels (bq : Option (List ℚ)) (br : Option (List ℝ))
    (len fftSize wt sr lpcOrder : ℤ) (poles : List (ℚ × ℚ))
    (minFreq maxFreq f0 : ℝ)
    (hq : bq = none ∨ len ≤ 0) (hr : br = none ∨ len ≤ 0) :
    compute_fft_rust br len fftSize wt = [] ∧
    detect_pitch_rust bq len sr = ⟨0, 0, false⟩ ∧
    extract_formants_rust bq len sr lpcOrder poles = ⟨0, 0, 0, 0, 0, 0⟩ ∧
    analyze_spectrum_rust br len sr = ⟨0, 0, 0⟩ ∧
    calculate_hnr_rust br len sr minFreq maxFreq = ⟨hnrSentinel, 0, false⟩ ∧
    calculate_h1h2_rust br len sr f0 = ⟨0, 0, 0, 0⟩ := by
  have hqn : readFrame bq len = none := by
    rcases hq with h | h
    · rw [h]; rfl
    · exact readFrame_nonpos _ h
  have hrn : readFrame br len = none := by
    rcases hr with h | h
    · rw [h]; rfl
    · exact readFrame_nonpos _ h
  refine ⟨?_, ?_, ?_, ?_, ?_, ?_⟩
  · unfold compute_fft_rust
    rw [hrn]
  · unfold detect_pitch_rust
    rw [hqn]
  · unfold extract_formants_rust
    rw [hqn]
  · unfold analyze_spectrum_rust
    rw [hrn]
  · unfold calculate_hnr_rust
    rw [hrn]
  · unfold calculate_h1h2_rust
    rw [hrn]

theorem invalid_input_sentinels_witness :
    ((none : Option (List ℚ)) = none ∨ (7 : ℤ) ≤ 0) ∧
    ((none : Option (List ℝ)) = none ∨ (7 : ℤ) ≤ 0) ∧
    compute_fft_rust none 7 1024 0 = [] ∧
    detect_pitch_rust none 7 16000 = ⟨0, 0, false⟩ ∧
    calculate_hnr_rust none 7 16000 75 500 = ⟨hnrSentinel, 0, false⟩ := by
  obtain ⟨h1, h2, _, _, h5, _⟩ :=
    invalid_input_sentinels none none 7 1024 0 16000 12 [] 75 500 200
      (Or.inl rfl) (Or.inl rfl)
  exact ⟨Or.inl rfl, Or.inl rfl, h1, h2, h5⟩

/-! ## Statelessness and determinism of the public surface

Calls are modelled as a state machine over the spectrum-buffer heap: the only
state any call touches is the heap of live FFT buffers.  Analysis calls are
pure — their observable output is a function of the call arguments alone,
unaffected by any earlier call. -/

/-- A call to the public surface, with its arguments. -/
inductive DSPCall where
  | fftCall (buf : Option (List ℝ)) (len fftSize wt : ℤ)
  | freeCall (p : ℕ)
  | pitchCall (buf : Option (List ℚ)) (len sr : ℤ)
  | formantsCall (buf : Option (List ℚ)) (len sr lpcOrder : ℤ)
      (poles : List (ℚ × ℚ))
  | spectrumCall (buf : Option (List ℝ)) (len sr : ℤ)
  | hnrCall (buf : Option (List ℝ)) (len sr : ℤ) (minFreq maxFreq : ℝ)
  | h1h2Call (buf : Option (List ℝ)) (len sr : ℤ) (f0 : ℝ)

/-- The observable by-value outcome of a call (for `compute_fft_rust`, the
buffer contents the returned pointer designates). -/
inductive CallOut where
  | spectrumBufOut (mags : List ℝ)
  | freeOut (ok : Bool)
  | pitchOut (r : PitchResultC)
  | formantsOut (r : FormantsResultC)
  | spectrumOut (r : SpectrumResultC)
  | hnrOut (r : HNRResultC)
  | h1h2Out (r : H1H2ResultC)

/-- Every call except the buffer release is an analysis call. -/
def DSPCall.isAnalysis : DSPCall → Bool
  | .freeCall _ => false
  | _ => true

/-- The observable outcome of a call executed in heap state `σ`. -/
noncomputable def callOut (σ : FFTHeap) : DSPCall → CallOut
  | .fftCall buf len fftSize wt =>
    .spectrumBufOut (compute_fft_rust buf len fftSize wt)
  | .freeCall p => .freeOut (free_fft_result_rust σ p).isSome
  | .pitchCall buf len sr => .pitchOut (detect_pitch_rust buf len sr)
  | .formantsCall buf len sr lpcOrder poles =>
    .formantsOut (extract_formants_rust buf len sr lpcOrder poles)
  | .spectrumCall buf len sr => .spectrumOut (analyze_spectrum_rust buf len sr)
  | .hnrCall buf len sr minFreq maxFreq =>
    .hnrOut (calculate_hnr_rust buf len sr minFreq maxFreq)
  | .h1h2Call buf len sr f0 => .h1h2Out (calculate_h1h2_rust buf len sr f0)

/-- The heap state after a call: an FFT call allocates, a release frees, and
every other call leaves the state untouched. -/
noncomputable def stepState (σ : FFTHeap) : DSPCall → FFTHeap
  | .fftCall buf len fftSize wt => (computeFFTAlloc σ buf len fftSize wt).2
  | .freeCall p =>
    match free_fft_result_rust σ p with
    | some σ2 => σ2
    | none => σ
  | _ => σ

/-- The heap state after a sequence of calls. -/
noncomputable def execTrace (σ : FFTHeap) : List DSPCall → FFTHeap
  | [] => σ
  | c :: rest => execTrace (stepState σ c) rest

/-- **C9.** Every public analysis function is deterministic and stateless: its
observable outcome is identical in any two heap states — in particular, the
outcome after an arbitrary trace of earlier calls equals the outcome on the
initial state, so two calls with identical arguments return identical
results and no call depends on prior calls. -/
theorem analysis_calls_deterministic_stateless
    (σ1 σ2 : FFTHeap) (tr : List DSPCall) (c : DSPCall)
    (hc : c.isAnalysis = true) :
    callOut σ1 c = callOut σ2 c ∧
    callOut (execTrace σ1 tr) c = callOut σ1 c := by
  have key : ∀ σa σb : FFTHeap, callOut σa c = callOut σb c := by
    intro σa σb
    cases c with
    | freeCall p => exact absurd hc (by simp [DSPCall.isAnalysis])
    | fftCall buf len fftSize wt => rfl
    | pitchCall buf len sr => rfl
    | formantsCall buf len sr lpcOrder poles => rfl
    | spectrumCall buf len sr => rfl
    | hnrCall buf len sr minFreq maxFreq => rfl
    | h1h2Call buf len sr f0 => rfl
  exact ⟨key σ1 σ2, key _ _⟩

theorem analysis_calls_deterministic_stateless_witness :
    DSPCall.isAnalysis (DSPCall.pitchCall (some [(1 : ℚ), 2]) 2 16000) = true ∧
    callOut ⟨0, []⟩ (DSPCall.pitchCall (some [(1 : ℚ), 2]) 2 16000) =
      callOut ⟨5, [(0, [(1 : ℝ)])]⟩
        (DSPCall.pitchCall (some [(1 : ℚ), 2]) 2 16000) ∧
    callOut (execTrace ⟨0, []⟩ [DSPCall.freeCall 0])
        (DSPCall.pitchCall (some [(1 : ℚ), 2]) 2 16000) =
      callOut ⟨0, []⟩ (DSPCall.pitchCall (some [(1 : ℚ), 2]) 2 16000) := by
  obtain ⟨h1, h2⟩ :=
    analysis_calls_deterministic_stateless ⟨0, []⟩ ⟨5, [(0, [(1 : ℝ)])]⟩
      [DSPCall.freeCall 0] (DSPCall.pitchCall (some [(1 : ℚ), 2]) 2 16000) rfl
  exact ⟨rfl, h1, h2⟩
